import Mathlib

/-!
Verification of the node-storage layer of `statedb-rs` (`src/mem_store.rs`).

The two backings, `LruMemStore<T, H>` and `BTreeStore<T, H>`, each consist of
two caches shared across forks (`codes`, `kv`, each an `Arc<Mutex<...>>`) and a
private per-instance `staging : BTreeMap<SH256, Arc<T>>`.  We embed an instance
as the pair of (the contents of the shared caches, the private staging map),
threading the shared part explicitly: two forks X and Y are two staging maps
over one shared value, exactly as two `Arc` clones view one allocation.

`SH256` hashes are modelled as `Nat`; `Arc<T>` as `T`; `HexBytes` as `List Nat`;
a `BTreeMap` as an association list kept in ascending key order by its insert.
`base::lru::LruMap` comes from the `base` crate, whose source is not part of
this repository: it is modelled from the spec (see `LruMap` below).
-/

/-- 256-bit content hash (`eth_types::SH256`), modelled as `Nat`. -/
abbrev SH256 := Nat

/-- Raw byte blob (`eth_types::HexBytes`), modelled as a list of bytes. -/
abbrev HexBytes := List Nat

/-- First-match lookup in an association list; models `BTreeMap::get`
(and key search inside the LRU recency list). -/
def lookupKey {T : Type} : List (SH256 × T) → SH256 → Option T
  | [], _ => none
  | (k, v) :: rest, h => if h = k then some v else lookupKey rest h

/-- Models `BTreeMap::insert`: replace the value when the key is present,
otherwise insert keeping ascending key order. -/
def btmInsert {T : Type} (k : SH256) (v : T) : List (SH256 × T) → List (SH256 × T)
  | [] => [(k, v)]
  | (k', v') :: rest =>
    if k < k' then (k, v) :: (k', v') :: rest
    else if k = k' then (k, v) :: rest
    else (k', v') :: btmInsert k v rest

/-- Models `BTreeMap::remove`: drop the entry with the given key, if any. -/
def btmRemove {T : Type} (k : SH256) : List (SH256 × T) → List (SH256 × T)
  | [] => []
  | (k', v') :: rest => if k = k' then rest else (k', v') :: btmRemove k rest

/-- Remove every entry with key `k` from a recency list (helper for `LruMap`). -/
def stripKey {T : Type} (k : SH256) : List (SH256 × T) → List (SH256 × T)
  | [] => []
  | (k', v') :: rest => if k = k' then stripKey k rest else (k', v') :: stripKey k rest

/-- Modelled from the spec: `base::lru::LruMap`, the bounded cache used by
`LruMemStore`; its source (crate `base`) is not under `src/`.  Spec §3/§4.3:
a mapping bounded by a capacity fixed at construction; "recency updated on both
read and write"; "on insert beyond capacity, the least-recently-used entry is
evicted".  `entries` is ordered most-recently-used first, so eviction drops
from the tail. -/
structure LruMap (T : Type) where
  cap : Nat
  entries : List (SH256 × T)

/-- Modelled from the spec: `LruMap` read — a hit returns the value and
promotes the entry to most-recent; a miss changes nothing. -/
def LruMap.get {T : Type} (m : LruMap T) (k : SH256) : Option T × LruMap T :=
  match lookupKey m.entries k with
  | some v => (some v, { m with entries := (k, v) :: stripKey k m.entries })
  | none => (none, m)

/-- Modelled from the spec: `LruMap` write — the pair becomes most-recent
(replacing any entry of the same key), and if the capacity is now exceeded the
least-recently-used entries (the tail) are evicted. -/
def LruMap.insert {T : Type} (m : LruMap T) (k : SH256) (v : T) : LruMap T :=
  { m with entries := ((k, v) :: stripKey k m.entries).take m.cap }

/-- Modelled from the spec: `LruMap::clear` empties the cache. -/
def LruMap.clear {T : Type} (m : LruMap T) : LruMap T :=
  { m with entries := [] }

/-- Modelled from the spec: `LruMap::append(&mut staging)` as used by `commit`
moves every staged pair into the cache; the drained `BTreeMap` yields its pairs
in ascending key order, each inserted with `LruMap.insert`. -/
def LruMap.append {T : Type} (m : LruMap T) (st : List (SH256 × T)) : LruMap T :=
  st.foldl (fun acc p => acc.insert p.1 p.2) m

/-- Contents of the two `Arc<Mutex<LruMap<..>>>` caches jointly owned by a
`LruMemStore` and all of its forks. -/
structure LruShared (T : Type) where
  codes : LruMap HexBytes
  kv : LruMap T

/-- A store instance's private staging map (`staging: BTreeMap<SH256, Arc<T>>`). -/
abbrev Staging (T : Type) := List (SH256 × T)

/-- `LruMemStore::new(limit)`: fresh empty caches of capacity `limit`,
empty staging. -/
def LruMemStore.new (T : Type) (limit : Nat) : LruShared T × Staging T :=
  (⟨⟨limit, []⟩, ⟨limit, []⟩⟩, [])

/-- `LruMemStore::clear`: empties the shared node cache `kv` only. -/
def LruMemStore.clear {T : Type} (sh : LruShared T) : LruShared T :=
  { sh with kv := sh.kv.clear }

/-- `LruMemStore::fork`: the fork clones the `Arc` handles (same shared state)
and starts with an empty staging map. -/
def LruMemStore.fork {T : Type} (_sh : LruShared T) : Staging T := []

/-- `LruMemStore::get`: staging first; on a staging miss, the shared `kv`
cache under its lock (an LRU read, which promotes recency). -/
def LruMemStore.get {T : Type} (sh : LruShared T) (staging : Staging T)
    (index : SH256) : Option T × LruShared T :=
  match lookupKey staging index with
  | some node => (some node, sh)
  | none =>
    let r := sh.kv.get index
    (r.1, { sh with kv := r.2 })

/-- `LruMemStore::add_node`: insert into staging keyed by `H::hash(node)`;
no-op when the hash is already staged (`Entry::Occupied`). -/
def LruMemStore.add_node {T : Type} (H : T → SH256) (staging : Staging T)
    (node : T) : Staging T :=
  match lookupKey staging (H node) with
  | some _ => staging
  | none => btmInsert (H node) node staging

/-- `LruMemStore::set_code`: write-through to the shared code cache. -/
def LruMemStore.set_code {T : Type} (sh : LruShared T) (hash : SH256)
    (code : HexBytes) : LruShared T :=
  { sh with codes := sh.codes.insert hash code }

/-- `LruMemStore::get_code`: read the shared code cache (an LRU read). -/
def LruMemStore.get_code {T : Type} (sh : LruShared T) (hash : SH256) :
    Option HexBytes × LruShared T :=
  let r := sh.codes.get hash
  (r.1, { sh with codes := r.2 })

/-- `LruMemStore::remove_staging_node`: remove `H::hash(node)` from staging. -/
def LruMemStore.remove_staging_node {T : Type} (H : T → SH256)
    (staging : Staging T) (node : T) : Staging T :=
  btmRemove (H node) staging

/-- `LruMemStore::staging`: wrap the node and `add_node` it. -/
def LruMemStore.staging {T : Type} (H : T → SH256) (st : Staging T) (node : T) :
    T × Staging T :=
  (node, LruMemStore.add_node H st node)

/-- `LruMemStore::commit`: records `staging.len()`, appends the drained staging
into the shared `kv` cache, and returns the recorded length. -/
def LruMemStore.commit {T : Type} (sh : LruShared T) (st : Staging T) :
    Nat × LruShared T × Staging T :=
  (st.length, { sh with kv := sh.kv.append st }, [])

/-- Contents of the two `Arc<Mutex<BTreeMap<..>>>` caches jointly owned by a
`BTreeStore` and all of its forks. -/
structure BtShared (T : Type) where
  codes : List (SH256 × HexBytes)
  kv : List (SH256 × T)

/-- `BTreeStore::new()`: fresh empty caches, empty staging. -/
def BTreeStore.new (T : Type) : BtShared T × Staging T :=
  (⟨[], []⟩, [])

/-- `BTreeStore::clear`: empties the shared node cache `kv` only. -/
def BTreeStore.clear {T : Type} (sh : BtShared T) : BtShared T :=
  { sh with kv := [] }

/-- `BTreeStore::fork`: same shared caches, empty staging. -/
def BTreeStore.fork {T : Type} (_sh : BtShared T) : Staging T := []

/-- `BTreeStore::get`: staging first, else the shared `kv` map (pure read). -/
def BTreeStore.get {T : Type} (sh : BtShared T) (staging : Staging T)
    (index : SH256) : Option T :=
  match lookupKey staging index with
  | some node => some node
  | none => lookupKey sh.kv index

/-- `BTreeStore::add_node`: same first-write-wins staging insert as the LRU
backing. -/
def BTreeStore.add_node {T : Type} (H : T → SH256) (staging : Staging T)
    (node : T) : Staging T :=
  match lookupKey staging (H node) with
  | some _ => staging
  | none => btmInsert (H node) node staging

/-- `BTreeStore::set_code`: write-through to the shared code map. -/
def BTreeStore.set_code {T : Type} (sh : BtShared T) (hash : SH256)
    (code : HexBytes) : BtShared T :=
  { sh with codes := btmInsert hash code sh.codes }

/-- `BTreeStore::get_code`: read the shared code map. -/
def BTreeStore.get_code {T : Type} (sh : BtShared T) (hash : SH256) :
    Option HexBytes :=
  lookupKey sh.codes hash

/-- `BTreeStore::remove_staging_node`. -/
def BTreeStore.remove_staging_node {T : Type} (H : T → SH256)
    (staging : Staging T) (node : T) : Staging T :=
  btmRemove (H node) staging

/-- `BTreeStore::staging`. -/
def BTreeStore.staging {T : Type} (H : T → SH256) (st : Staging T) (node : T) :
    T × Staging T :=
  (node, BTreeStore.add_node H st node)

/-- `BTreeStore::commit`: `BTreeMap::append` drains staging (ascending keys,
staged values overwriting) into the shared `kv` map; returns the drained
length. -/
def BTreeStore.commit {T : Type} (sh : BtShared T) (st : Staging T) :
    Nat × BtShared T × Staging T :=
  (st.length, { sh with kv := st.foldl (fun acc p => btmInsert p.1 p.2 acc) sh.kv }, [])

/-- The staging-map content-addressing invariant (spec §3): every entry's key
is the hash of its value. -/
def HashConsistent {T : Type} (H : T → SH256) (st : Staging T) : Prop :=
  ∀ p ∈ st, p.1 = H p.2

/-- Concrete LRU shared state (capacity 2, both caches empty), used to
evaluate the theorems on concrete inputs. -/
def lruSharedExample : LruShared Nat :=
  ⟨⟨2, []⟩, ⟨2, []⟩⟩

/-- Concrete unbounded shared state (both caches empty). -/
def btSharedExample : BtShared Nat :=
  ⟨[], []⟩

/-! ### Basic association-list lemmas -/

theorem lookupKey_btmInsert_self {T : Type} (k : SH256) (v : T)
    (l : List (SH256 × T)) : lookupKey (btmInsert k v l) k = some v := by
  induction l with
  | nil => simp [btmInsert, lookupKey]
  | cons p rest ih =>
    obtain ⟨k', v'⟩ := p
    by_cases h1 : k < k'
    · simp [btmInsert, lookupKey, h1]
    · by_cases h2 : k = k'
      · simp [btmInsert, lookupKey, h1, h2]
      · simp [btmInsert, lookupKey, h1, h2, ih]

theorem lookupKey_btmInsert_other {T : Type} {k h : SH256} (v : T)
    (l : List (SH256 × T)) (hne : h ≠ k) :
    lookupKey (btmInsert k v l) h = lookupKey l h := by
  induction l with
  | nil => simp [btmInsert, lookupKey, hne]
  | cons p rest ih =>
    obtain ⟨k', v'⟩ := p
    by_cases h1 : k < k'
    · simp [btmInsert, lookupKey, h1, hne]
    · by_cases h2 : k = k'
      · subst h2
        simp [btmInsert, lookupKey, h1, hne]
      · by_cases h3 : h = k'
        · simp [btmInsert, lookupKey, h1, h2, h3]
        · simp [btmInsert, lookupKey, h1, h2, h3, ih]

theorem lookupKey_stripKey_self {T : Type} (k : SH256) (l : List (SH256 × T)) :
    lookupKey (stripKey k l) k = none := by
  induction l with
  | nil => simp [stripKey, lookupKey]
  | cons p rest ih =>
    obtain ⟨k', v'⟩ := p
    by_cases h : k = k'
    · subst h
      simp [stripKey, ih]
    · simp [stripKey, lookupKey, h, Ne.symm h, ih]

theorem lookupKey_stripKey_other {T : Type} {k h : SH256}
    (l : List (SH256 × T)) (hne : h ≠ k) :
    lookupKey (stripKey k l) h = lookupKey l h := by
  induction l with
  | nil => simp [stripKey]
  | cons p rest ih =>
    obtain ⟨k', v'⟩ := p
    by_cases h1 : k = k'
    · subst h1
      simp [stripKey, lookupKey, hne, ih]
    · by_cases h2 : h = k'
      · simp [stripKey, lookupKey, h1, h2]
      · simp [stripKey, lookupKey, h1, h2, ih]

theorem stripKey_length_le {T : Type} (k : SH256) (l : List (SH256 × T)) :
    (stripKey k l).length ≤ l.length := by
  induction l with
  | nil => simp [stripKey]
  | cons p rest ih =>
    obtain ⟨k', v'⟩ := p
    simp only [stripKey, List.length_cons]
    by_cases h : k = k'
    · rw [if_pos h]
      exact Nat.le_succ_of_le ih
    · rw [if_neg h]
      simp only [List.length_cons]
      omega

/-! ### LruMap lemmas -/

theorem LruMap.insert_cap {T : Type} (m : LruMap T) (k : SH256) (v : T) :
    (m.insert k v).cap = m.cap := rfl

theorem LruMap.insert_length_le {T : Type} (m : LruMap T) (k : SH256) (v : T) :
    (m.insert k v).entries.length ≤ m.entries.length + 1 := by
  have h1 := stripKey_length_le k m.entries
  simp only [LruMap.insert, List.length_take, List.length_cons]
  omega

theorem LruMap.lookup_insert_self {T : Type} (m : LruMap T) (k : SH256) (v : T)
    (hcap : 1 ≤ m.cap) :
    lookupKey (m.insert k v).entries k = some v := by
  obtain ⟨c, hc⟩ : ∃ c, m.cap = c + 1 := ⟨m.cap - 1, by omega⟩
  simp [LruMap.insert, hc, List.take_succ_cons, lookupKey]

theorem LruMap.lookup_insert_other {T : Type} (m : LruMap T) {k h : SH256}
    (v : T) (hne : h ≠ k) (hroom : m.entries.length + 1 ≤ m.cap) :
    lookupKey (m.insert k v).entries h = lookupKey m.entries h := by
  have h1 := stripKey_length_le k m.entries
  have h2 : ((k, v) :: stripKey k m.entries).take m.cap
      = (k, v) :: stripKey k m.entries := by
    apply List.take_of_length_le
    simp only [List.length_cons]
    omega
  simp only [LruMap.insert, h2, lookupKey, if_neg hne]
  exact lookupKey_stripKey_other m.entries hne

theorem LruMap.append_cap {T : Type} (st : List (SH256 × T)) (m : LruMap T) :
    (m.append st).cap = m.cap := by
  induction st generalizing m with
  | nil => rfl
  | cons p rest ih => simpa [LruMap.append] using ih (m.insert p.1 p.2)

theorem LruMap.lookup_append_not_mem {T : Type} (st : List (SH256 × T))
    (m : LruMap T) {k : SH256} (hk : k ∉ st.map Prod.fst)
    (hlen : m.entries.length + st.length ≤ m.cap) :
    lookupKey (m.append st).entries k = lookupKey m.entries k := by
  induction st generalizing m with
  | nil => rfl
  | cons p rest ih =>
    obtain ⟨k0, v0⟩ := p
    simp only [List.map_cons, List.mem_cons, not_or] at hk
    have hlen0 : m.entries.length + 1 ≤ m.cap := by
      simp only [List.length_cons] at hlen; omega
    have hlen' : (m.insert k0 v0).entries.length + rest.length
        ≤ (m.insert k0 v0).cap := by
      have := m.insert_length_le k0 v0
      simp only [LruMap.insert_cap, List.length_cons] at *
      omega
    have step := ih (m.insert k0 v0) hk.2 hlen'
    calc lookupKey (m.append ((k0, v0) :: rest)).entries k
        = lookupKey ((m.insert k0 v0).append rest).entries k := rfl
      _ = lookupKey (m.insert k0 v0).entries k := step
      _ = lookupKey m.entries k := m.lookup_insert_other v0 hk.1 hlen0

theorem LruMap.lookup_append_mem {T : Type} (st : List (SH256 × T))
    (m : LruMap T) {k : SH256} {v : T} (hmem : (k, v) ∈ st)
    (hnd : (st.map Prod.fst).Nodup)
    (hlen : m.entries.length + st.length ≤ m.cap) :
    lookupKey (m.append st).entries k = some v := by
  induction st generalizing m with
  | nil => cases hmem
  | cons p rest ih =>
    obtain ⟨k0, v0⟩ := p
    simp only [List.map_cons, List.nodup_cons] at hnd
    have hcap1 : 1 ≤ m.cap := by
      simp only [List.length_cons] at hlen; omega
    have hlen' : (m.insert k0 v0).entries.length + rest.length
        ≤ (m.insert k0 v0).cap := by
      have := m.insert_length_le k0 v0
      simp only [LruMap.insert_cap, List.length_cons] at *
      omega
    rcases List.mem_cons.mp hmem with heq | hrest
    · obtain ⟨hk, hv⟩ := Prod.mk.injEq .. ▸ heq
      subst hk; subst hv
      have hnot : k ∉ rest.map Prod.fst := hnd.1
      calc lookupKey (m.append ((k, v) :: rest)).entries k
          = lookupKey ((m.insert k v).append rest).entries k := rfl
        _ = lookupKey (m.insert k v).entries k :=
            LruMap.lookup_append_not_mem rest (m.insert k v) hnot hlen'
        _ = some v := m.lookup_insert_self k v hcap1
    · exact ih (m.insert k0 v0) hrest hnd.2 hlen'

/-! ### BTreeMap fold (append) lemmas -/

theorem btmFold_lookup_not_mem {T : Type} (st : List (SH256 × T))
    (m : List (SH256 × T)) {k : SH256} (hk : k ∉ st.map Prod.fst) :
    lookupKey (st.foldl (fun acc p => btmInsert p.1 p.2 acc) m) k
      = lookupKey m k := by
  induction st generalizing m with
  | nil => rfl
  | cons p rest ih =>
    obtain ⟨k0, v0⟩ := p
    simp only [List.map_cons, List.mem_cons, not_or] at hk
    calc lookupKey (((k0, v0) :: rest).foldl
            (fun acc p => btmInsert p.1 p.2 acc) m) k
        = lookupKey (rest.foldl (fun acc p => btmInsert p.1 p.2 acc)
            (btmInsert k0 v0 m)) k := rfl
      _ = lookupKey (btmInsert k0 v0 m) k := ih (btmInsert k0 v0 m) hk.2
      _ = lookupKey m k := lookupKey_btmInsert_other v0 m hk.1

theorem btmFold_lookup_mem {T : Type} (st : List (SH256 × T))
    (m : List (SH256 × T)) {k : SH256} {v : T} (hmem : (k, v) ∈ st)
    (hnd : (st.map Prod.fst).Nodup) :
    lookupKey (st.foldl (fun acc p => btmInsert p.1 p.2 acc) m) k = some v := by
  induction st generalizing m with
  | nil => cases hmem
  | cons p rest ih =>
    obtain ⟨k0, v0⟩ := p
    simp only [List.map_cons, List.nodup_cons] at hnd
    rcases List.mem_cons.mp hmem with heq | hrest
    · obtain ⟨hk, hv⟩ := Prod.mk.injEq .. ▸ heq
      subst hk; subst hv
      calc lookupKey (((k, v) :: rest).foldl
              (fun acc p => btmInsert p.1 p.2 acc) m) k
          = lookupKey (rest.foldl (fun acc p => btmInsert p.1 p.2 acc)
              (btmInsert k v m)) k := rfl
        _ = lookupKey (btmInsert k v m) k :=
            btmFold_lookup_not_mem rest (btmInsert k v m) hnd.1
        _ = some v := lookupKey_btmInsert_self k v m
    · exact ih (btmInsert k0 v0 m) hrest hnd.2

/-! ### Membership lemmas for staging operations -/

theorem mem_btmInsert {T : Type} {p : SH256 × T} {k : SH256} {v : T}
    {l : List (SH256 × T)} (h : p ∈ btmInsert k v l) : p = (k, v) ∨ p ∈ l := by
  induction l with
  | nil => simpa [btmInsert] using h
  | cons q rest ih =>
    obtain ⟨k', v'⟩ := q
    simp only [List.mem_cons]
    by_cases h1 : k < k'
    · simp only [btmInsert, if_pos h1, List.mem_cons] at h
      tauto
    · by_cases h2 : k = k'
      · simp only [btmInsert, if_neg h1, if_pos h2, List.mem_cons] at h
        tauto
      · simp only [btmInsert, if_neg h1, if_neg h2, List.mem_cons] at h
        rcases h with h | h
        · tauto
        · rcases ih h with h | h <;> tauto

theorem mem_btmRemove {T : Type} {p : SH256 × T} {k : SH256}
    {l : List (SH256 × T)} (h : p ∈ btmRemove k l) : p ∈ l := by
  induction l with
  | nil => simp [btmRemove] at h
  | cons q rest ih =>
    obtain ⟨k', v'⟩ := q
    by_cases h1 : k = k'
    · simp only [btmRemove, if_pos h1] at h
      simp [h]
    · simp only [btmRemove, if_neg h1, List.mem_cons] at h
      rcases h with h | h
      · simp [h]
      · simp [ih h]

/-! ### Shape lemmas for the store operations -/

theorem LruMemStore.add_node_eq_bt {T : Type} (H : T → SH256) (st : Staging T)
    (n : T) : BTreeStore.add_node H st n = LruMemStore.add_node H st n := rfl

theorem LruMemStore.add_node_cases {T : Type} (H : T → SH256) (st : Staging T)
    (n : T) :
    (lookupKey st (H n) ≠ none ∧ LruMemStore.add_node H st n = st) ∨
    (lookupKey st (H n) = none ∧
      LruMemStore.add_node H st n = btmInsert (H n) n st) := by
  unfold LruMemStore.add_node
  cases lookupKey st (H n) <;> simp

/-! ### Claim theorems -/

/-- C1: Read-your-own-writes.  After `add_node(n)` on an instance of either
backing and before any commit, `get(H::hash(n))` returns `Some(n)`: `get`
consults the instance's private staging map before the shared node cache.
The hypothesis rules out a pre-existing staged entry at `H n` holding a
different node — impossible in the code by content-addressing determinism
(identical hash implies identical content, spec §3). -/
theorem read_your_writes {T : Type} (H : T → SH256) (shL : LruShared T)
    (shB : BtShared T) (st : Staging T) (n : T)
    (hcoll : ∀ n', lookupKey st (H n) = some n' → n' = n) :
    (LruMemStore.get shL (LruMemStore.add_node H st n) (H n)).1 = some n ∧
    BTreeStore.get shB (BTreeStore.add_node H st n) (H n) = some n := by
  cases hc : lookupKey st (H n) with
  | some n' =>
    have hn : n' = n := hcoll n' hc
    subst hn
    constructor
    · simp [LruMemStore.get, LruMemStore.add_node, hc]
    · simp [BTreeStore.get, BTreeStore.add_node, hc]
  | none =>
    constructor
    · simp [LruMemStore.get, LruMemStore.add_node, hc, lookupKey_btmInsert_self]
    · simp [BTreeStore.get, BTreeStore.add_node, hc, lookupKey_btmInsert_self]

/-- C1 witness: `T = Nat`, `H = id`, empty staging, node `5`. -/
theorem read_your_writes_witness :
    (∀ n', lookupKey ([] : Staging Nat) (id 5) = some n' → n' = 5) ∧
    ((LruMemStore.get lruSharedExample (LruMemStore.add_node id [] 5)
        (id 5)).1 = some 5 ∧
     BTreeStore.get btSharedExample (BTreeStore.add_node id [] 5)
        (id 5) = some 5) :=
  ⟨fun n' h => by simp [lookupKey] at h,
   read_your_writes id lruSharedExample btSharedExample [] 5
     (fun n' h => by simp [lookupKey] at h)⟩

/-- C3: Write isolation across forks.  X and Y are two staging maps over one
shared cache state (Y a fork of X or conversely).  If `H n` is absent from the
shared node cache and from Y's staging, then after `X.add_node n` — which by
construction takes and returns only X's private staging, leaving the shared
state untouched — `Y.get (H n)` still returns `None`, while X now has the node
staged. -/
theorem write_isolation {T : Type} (H : T → SH256) (shL : LruShared T)
    (shB : BtShared T) (stX stY : Staging T) (n : T)
    (hX : lookupKey stX (H n) = none)
    (hY : lookupKey stY (H n) = none)
    (hkvL : lookupKey shL.kv.entries (H n) = none)
    (hkvB : lookupKey shB.kv (H n) = none) :
    (lookupKey (LruMemStore.add_node H stX n) (H n) = some n ∧
     (LruMemStore.get shL stY (H n)).1 = none) ∧
    (lookupKey (BTreeStore.add_node H stX n) (H n) = some n ∧
     BTreeStore.get shB stY (H n) = none) := by
  refine ⟨⟨?_, ?_⟩, ⟨?_, ?_⟩⟩
  · simp [LruMemStore.add_node, hX, lookupKey_btmInsert_self]
  · simp [LruMemStore.get, hY, LruMap.get, hkvL]
  · simp [BTreeStore.add_node, hX, lookupKey_btmInsert_self]
  · simp [BTreeStore.get, hY, hkvB]

/-- C3 witness: `T = Nat`, `H = id`, empty stagings and caches, node `7`. -/
theorem write_isolation_witness :
    (lookupKey ([] : Staging Nat) (id 7) = none ∧
     lookupKey lruSharedExample.kv.entries (id 7) = none ∧
     lookupKey btSharedExample.kv (id 7) = none) ∧
    ((lookupKey (LruMemStore.add_node id [] 7) (id 7) = some 7 ∧
      (LruMemStore.get lruSharedExample [] (id 7)).1 = none) ∧
     (lookupKey (BTreeStore.add_node id [] 7) (id 7) = some 7 ∧
      BTreeStore.get btSharedExample [] (id 7) = none)) :=
  ⟨⟨rfl, rfl, rfl⟩,
   write_isolation id lruSharedExample btSharedExample [] [] 7 rfl rfl rfl rfl⟩

/-- C4: Commit visibility across forks.  X (starting from empty staging)
stages `n` and commits; a sibling fork Y over the same shared cache, whose own
staging does not shadow `H n`, then reads `Some n` straight from the shared
cache.  For the bounded backing the capacity must be positive — the claim's
"provided the entry was not evicted" proviso. -/
theorem commit_visibility {T : Type} (H : T → SH256) (shL : LruShared T)
    (shB : BtShared T) (stY : Staging T) (n : T)
    (hcap : 1 ≤ shL.kv.cap)
    (hY : lookupKey stY (H n) = none) :
    (LruMemStore.get (LruMemStore.commit shL
        (LruMemStore.add_node H [] n)).2.1 stY (H n)).1 = some n ∧
    BTreeStore.get (BTreeStore.commit shB
        (BTreeStore.add_node H [] n)).2.1 stY (H n) = some n := by
  have hadd : LruMemStore.add_node H ([] : Staging T) n = [(H n, n)] := by
    simp [LruMemStore.add_node, lookupKey, btmInsert]
  have haddB : BTreeStore.add_node H ([] : Staging T) n = [(H n, n)] := by
    simp [BTreeStore.add_node, lookupKey, btmInsert]
  constructor
  · rw [hadd]
    have hins : lookupKey ((shL.kv.insert (H n) n).entries) (H n) = some n :=
      shL.kv.lookup_insert_self (H n) n hcap
    simp [LruMemStore.get, LruMemStore.commit, hY, LruMap.get, LruMap.append,
      hins]
  · rw [haddB]
    simp [BTreeStore.get, BTreeStore.commit, hY, lookupKey_btmInsert_self]

/-- C4 witness: `T = Nat`, `H = id`, fresh capacity-2 cache, node `9`,
fork with empty staging. -/
theorem commit_visibility_witness :
    (1 ≤ lruSharedExample.kv.cap ∧
     lookupKey ([] : Staging Nat) (id 9) = none) ∧
    ((LruMemStore.get (LruMemStore.commit lruSharedExample
        (LruMemStore.add_node id [] 9)).2.1 [] (id 9)).1 = some 9 ∧
     BTreeStore.get (BTreeStore.commit btSharedExample
        (BTreeStore.add_node id [] 9)).2.1 [] (id 9) = some 9) :=
  ⟨⟨by decide, rfl⟩,
   commit_visibility id lruSharedExample btSharedExample [] 9 (by decide) rfl⟩

/-- C8: Code writes bypass staging and are immediately shared.  After
`set_code h c` against the shared state, `get_code h` through that same shared
state — hence from any fork — returns `Some c` with no commit involved; in
this embedding neither operation takes or returns a staging map, mirroring
that the code never touches `self.staging`.  For the bounded backing the
code-cache capacity must be positive (the claim's not-evicted proviso). -/
theorem code_write_through {T : Type} (shL : LruShared T) (shB : BtShared T)
    (h : SH256) (c : HexBytes) (hcap : 1 ≤ shL.codes.cap) :
    (LruMemStore.get_code (LruMemStore.set_code shL h c) h).1 = some c ∧
    BTreeStore.get_code (BTreeStore.set_code shB h c) h = some c := by
  constructor
  · have hins : lookupKey ((shL.codes.insert h c).entries) h = some c :=
      shL.codes.lookup_insert_self h c hcap
    simp [LruMemStore.get_code, LruMemStore.set_code, LruMap.get, hins]
  · simp [BTreeStore.get_code, BTreeStore.set_code, lookupKey_btmInsert_self]

/-- C8 witness: hash `4`, blob `[1, 2]`, capacity-2 code cache. -/
theorem code_write_through_witness :
    (1 ≤ lruSharedExample.codes.cap) ∧
    ((LruMemStore.get_code (LruMemStore.set_code lruSharedExample 4 [1, 2])
        4).1 = some [1, 2] ∧
     BTreeStore.get_code (BTreeStore.set_code btSharedExample 4 [1, 2])
        4 = some [1, 2]) :=
  ⟨by decide,
   code_write_through lruSharedExample btSharedExample 4 [1, 2] (by decide)⟩

/-- C9: Frame property of `clear()`.  For both backings `clear` empties the
shared node cache (every subsequent cache lookup misses, and the LRU capacity
is kept) and leaves the shared code cache unchanged; `clear` neither takes nor
returns a staging map, mirroring that the code only locks and clears `kv`. -/
theorem clear_frame {T : Type} (shL : LruShared T) (shB : BtShared T)
    (h : SH256) :
    lookupKey (LruMemStore.clear shL).kv.entries h = none ∧
    (LruMemStore.clear shL).codes = shL.codes ∧
    (LruMemStore.clear shL).kv.cap = shL.kv.cap ∧
    lookupKey (BTreeStore.clear shB).kv h = none ∧
    (BTreeStore.clear shB).codes = shB.codes :=
  ⟨rfl, rfl, rfl, rfl, rfl⟩

/-- C10: `commit` on an instance with empty staging returns 0 and is the
identity on the shared caches, for both backings; and the second of two
consecutive commits with no intervening staging writes returns 0 and changes
nothing (a commit always leaves staging empty). -/
theorem commit_empty_identity {T : Type} (shL : LruShared T)
    (shB : BtShared T) (stL stB : Staging T) (hL : stL = []) (hB : stB = []) :
    LruMemStore.commit shL stL = (0, shL, []) ∧
    BTreeStore.commit shB stB = (0, shB, []) ∧
    (∀ (sh : LruShared T) (st : Staging T),
      LruMemStore.commit (LruMemStore.commit sh st).2.1
        (LruMemStore.commit sh st).2.2
        = (0, (LruMemStore.commit sh st).2.1, [])) ∧
    (∀ (sh : BtShared T) (st : Staging T),
      BTreeStore.commit (BTreeStore.commit sh st).2.1
        (BTreeStore.commit sh st).2.2
        = (0, (BTreeStore.commit sh st).2.1, [])) := by
  subst hL
  subst hB
  exact ⟨rfl, rfl, fun sh st => rfl, fun sh st => rfl⟩

/-- C10 witness: empty staging over the concrete shared states. -/
theorem commit_empty_identity_witness :
    (([] : Staging Nat) = [] ∧ ([] : Staging Nat) = []) ∧
    LruMemStore.commit lruSharedExample [] = (0, lruSharedExample, []) ∧
    BTreeStore.commit btSharedExample [] = (0, btSharedExample, []) :=
  ⟨⟨rfl, rfl⟩,
   (commit_empty_identity lruSharedExample btSharedExample [] [] rfl rfl).1,
   (commit_empty_identity lruSharedExample btSharedExample [] [] rfl rfl).2.1⟩

/-- C2: Commit count and post-state.  The hypothesis records that the staging
keys are distinct (a `BTreeMap` holds each key once, so `staging.len()` is the
number of distinct staged hashes).  `commit` returns that number and leaves
staging empty, for both backings; every staged pair is moved into the shared
node cache — present afterwards unconditionally for the unbounded backing,
and, for the bounded backing, present whenever the cache has room for them
(beyond capacity the LRU cache evicts least-recently-used entries, spec §4.3). -/
theorem commit_count_and_flush {T : Type} (shL : LruShared T)
    (shB : BtShared T) (st : Staging T) (hnd : (st.map Prod.fst).Nodup) :
    ((LruMemStore.commit shL st).1 = (st.map Prod.fst).dedup.length ∧
     (LruMemStore.commit shL st).2.2 = [] ∧
     (shL.kv.entries.length + st.length ≤ shL.kv.cap →
       ∀ p ∈ st, lookupKey (LruMemStore.commit shL st).2.1.kv.entries p.1
         = some p.2)) ∧
    ((BTreeStore.commit shB st).1 = (st.map Prod.fst).dedup.length ∧
     (BTreeStore.commit shB st).2.2 = [] ∧
     ∀ p ∈ st, lookupKey (BTreeStore.commit shB st).2.1.kv p.1 = some p.2) := by
  have hlen : (st.map Prod.fst).dedup.length = st.length := by
    rw [hnd.dedup]
    simp
  refine ⟨⟨?_, rfl, ?_⟩, ?_, rfl, ?_⟩
  · simp [LruMemStore.commit, hlen]
  · intro hfit p hp
    have hm : ((p.1, p.2) : SH256 × T) ∈ st := by
      simpa using hp
    simpa [LruMemStore.commit] using
      LruMap.lookup_append_mem st shL.kv hm hnd hfit
  · simp [BTreeStore.commit, hlen]
  · intro p hp
    have hm : ((p.1, p.2) : SH256 × T) ∈ st := by
      simpa using hp
    simpa [BTreeStore.commit] using
      btmFold_lookup_mem st shB.kv hm hnd

/-- C2 witness: staging `[(1, 11), (2, 22)]` over the concrete shared
states. -/
theorem commit_count_and_flush_witness :
    (([(1, 11), (2, 22)].map Prod.fst).Nodup ∧
     (LruMemStore.commit lruSharedExample [(1, 11), (2, 22)]).1 = 2 ∧
     (BTreeStore.commit btSharedExample [(1, 11), (2, 22)]).1 = 2) ∧
    (((LruMemStore.commit lruSharedExample [(1, 11), (2, 22)]).1
        = ([(1, 11), (2, 22)].map Prod.fst).dedup.length ∧
      (LruMemStore.commit lruSharedExample [(1, 11), (2, 22)]).2.2 = [] ∧
      (lruSharedExample.kv.entries.length + [(1, 11), (2, 22)].length
          ≤ lruSharedExample.kv.cap →
        ∀ p ∈ [(1, 11), (2, 22)],
          lookupKey (LruMemStore.commit lruSharedExample
            [(1, 11), (2, 22)]).2.1.kv.entries p.1 = some p.2)) ∧
     ((BTreeStore.commit btSharedExample [(1, 11), (2, 22)]).1
        = ([(1, 11), (2, 22)].map Prod.fst).dedup.length ∧
      (BTreeStore.commit btSharedExample [(1, 11), (2, 22)]).2.2 = [] ∧
      ∀ p ∈ [(1, 11), (2, 22)],
        lookupKey (BTreeStore.commit btSharedExample
          [(1, 11), (2, 22)]).2.1.kv p.1 = some p.2)) :=
  ⟨⟨by decide, by decide, by decide⟩,
   commit_count_and_flush lruSharedExample btSharedExample
     [(1, 11), (2, 22)] (by decide)⟩

/-- C5: Staging content-addressing invariant: `HashConsistent` (every staged
entry's key is the hash of its value) is preserved by every operation that
yields a staging map — `fork`, `add_node`, `staging`, `remove_staging_node`,
`commit` — for both backings.  The remaining interface operations (`get`,
`get_code`, `set_code`) neither take nor return a staging map in this
embedding, mirroring that they never touch `self.staging` in the code, so
they preserve the invariant trivially. -/
theorem staging_hash_invariant {T : Type} (H : T → SH256) (shL : LruShared T)
    (shB : BtShared T) (st : Staging T) (n : T) (hwf : HashConsistent H st) :
    HashConsistent H (LruMemStore.add_node H st n) ∧
    HashConsistent H (LruMemStore.remove_staging_node H st n) ∧
    HashConsistent H (LruMemStore.staging H st n).2 ∧
    HashConsistent H (LruMemStore.commit shL st).2.2 ∧
    HashConsistent H (LruMemStore.fork shL) ∧
    HashConsistent H (BTreeStore.add_node H st n) ∧
    HashConsistent H (BTreeStore.remove_staging_node H st n) ∧
    HashConsistent H (BTreeStore.staging H st n).2 ∧
    HashConsistent H (BTreeStore.commit shB st).2.2 ∧
    HashConsistent H (BTreeStore.fork shB) := by
  have hnil : HashConsistent H ([] : Staging T) := by
    intro p hp
    cases hp
  have hadd : HashConsistent H (LruMemStore.add_node H st n) := by
    rcases LruMemStore.add_node_cases H st n with ⟨_, he⟩ | ⟨_, he⟩
    · rw [he]
      exact hwf
    · rw [he]
      intro p hp
      rcases mem_btmInsert hp with h | h
      · rw [h]
      · exact hwf p h
  have hrem : HashConsistent H (LruMemStore.remove_staging_node H st n) := by
    intro p hp
    exact hwf p (mem_btmRemove hp)
  exact ⟨hadd, hrem, hadd, hnil, hnil,
    (LruMemStore.add_node_eq_bt H st n) ▸ hadd, hrem, hadd, hnil, hnil⟩

/-- C5 witness: `H = id`, staging `[(3, 3)]`, node `6`. -/
theorem staging_hash_invariant_witness :
    HashConsistent id [(3, 3)] ∧
    (HashConsistent id (LruMemStore.add_node id [(3, 3)] 6) ∧
     HashConsistent id (LruMemStore.remove_staging_node id [(3, 3)] 6) ∧
     HashConsistent id (LruMemStore.staging id [(3, 3)] 6).2 ∧
     HashConsistent id (LruMemStore.commit lruSharedExample [(3, 3)]).2.2 ∧
     HashConsistent id (LruMemStore.fork lruSharedExample) ∧
     HashConsistent id (BTreeStore.add_node id [(3, 3)] 6) ∧
     HashConsistent id (BTreeStore.remove_staging_node id [(3, 3)] 6) ∧
     HashConsistent id (BTreeStore.staging id [(3, 3)] 6).2 ∧
     HashConsistent id (BTreeStore.commit btSharedExample [(3, 3)]).2.2 ∧
     HashConsistent id (BTreeStore.fork btSharedExample)) :=
  ⟨by simp [HashConsistent],
   staging_hash_invariant id lruSharedExample btSharedExample [(3, 3)] 6
     (by simp [HashConsistent])⟩

/-- C6: Idempotent, first-write-wins staging.  From an empty staging map,
`add_node n` then `add_node n'` with `H n' = H n` leaves exactly the single
entry `(H n, n)` — the second insertion is a no-op and the first value is
kept — and a subsequent `remove_staging_node` with any node `n''` of that
hash leaves staging empty; both backings. -/
theorem idempotent_staging {T : Type} (H : T → SH256) (n n' n'' : T)
    (h1 : H n' = H n) (h2 : H n'' = H n) :
    (LruMemStore.add_node H (LruMemStore.add_node H [] n) n' = [(H n, n)] ∧
     LruMemStore.remove_staging_node H
       (LruMemStore.add_node H (LruMemStore.add_node H [] n) n') n'' = []) ∧
    (BTreeStore.add_node H (BTreeStore.add_node H [] n) n' = [(H n, n)] ∧
     BTreeStore.remove_staging_node H
       (BTreeStore.add_node H (BTreeStore.add_node H [] n) n') n'' = []) := by
  have e1 : LruMemStore.add_node H ([] : Staging T) n = [(H n, n)] := by
    simp [LruMemStore.add_node, lookupKey, btmInsert]
  have e2 : LruMemStore.add_node H [(H n, n)] n' = [(H n, n)] := by
    simp [LruMemStore.add_node, lookupKey, h1]
  have e3 : LruMemStore.remove_staging_node H [(H n, n)] n'' = [] := by
    simp [LruMemStore.remove_staging_node, btmRemove, h2]
  refine ⟨⟨?_, ?_⟩, ⟨?_, ?_⟩⟩
  · rw [e1, e2]
  · rw [e1, e2, e3]
  · rw [LruMemStore.add_node_eq_bt, LruMemStore.add_node_eq_bt, e1, e2]
  · rw [LruMemStore.add_node_eq_bt, LruMemStore.add_node_eq_bt, e1, e2]
    exact e3
/-- C6 witness: `H = fun _ => 0` (every node hashes alike), nodes `1`, `2`,
`3`. -/
theorem idempotent_staging_witness :
    ((fun _ => 0 : Nat → SH256) 2 = (fun _ => 0 : Nat → SH256) 1 ∧
     (fun _ => 0 : Nat → SH256) 3 = (fun _ => 0 : Nat → SH256) 1) ∧
    ((LruMemStore.add_node (fun _ => 0)
        (LruMemStore.add_node (fun _ => 0) [] 1) 2 = [(0, 1)] ∧
      LruMemStore.remove_staging_node (fun _ => 0)
        (LruMemStore.add_node (fun _ => 0)
          (LruMemStore.add_node (fun _ => 0) [] 1) 2) 3 = []) ∧
     (BTreeStore.add_node (fun _ => 0)
        (BTreeStore.add_node (fun _ => 0) [] 1) 2 = [(0, 1)] ∧
      BTreeStore.remove_staging_node (fun _ => 0)
        (BTreeStore.add_node (fun _ => 0)
          (BTreeStore.add_node (fun _ => 0) [] 1) 2) 3 = [])) :=
  ⟨⟨rfl, rfl⟩, idempotent_staging (fun _ => 0) 1 2 3 rfl rfl⟩

/-- C7: Bounded LRU eviction scenario.  With a capacity-2 store, committing
node A, then node B, then node C (pairwise distinct hashes, no intervening
reads) leaves exactly the least-recently-used entry evicted: `get (H A)` is
`None` while `get (H B)` and `get (H C)` are `Some`.  ("Committing nodes A
and B and then C" is read as one commit per node, which fixes their recency
order as A oldest; the spec-modelled `LruMap` then evicts A when C's commit
exceeds the capacity.) -/
theorem lru_eviction_scenario {T : Type} (H : T → SH256) (A B C : T)
    (hAB : H A ≠ H B) (hAC : H A ≠ H C) (hBC : H B ≠ H C) :
    let s0 := (LruMemStore.new T 2).1
    let s1 := (LruMemStore.commit s0 (LruMemStore.add_node H [] A)).2.1
    let s2 := (LruMemStore.commit s1 (LruMemStore.add_node H [] B)).2.1
    let s3 := (LruMemStore.commit s2 (LruMemStore.add_node H [] C)).2.1
    (LruMemStore.get s3 [] (H A)).1 = none ∧
    (LruMemStore.get s3 [] (H B)).1 = some B ∧
    (LruMemStore.get s3 [] (H C)).1 = some C := by
  have hBA := Ne.symm hAB
  have hCA := Ne.symm hAC
  have hCB := Ne.symm hBC
  simp [LruMemStore.new, LruMemStore.add_node, LruMemStore.commit,
    LruMemStore.get, LruMap.append, LruMap.insert, LruMap.get, lookupKey,
    stripKey, btmInsert, hAB, hAC, hBC, hBA, hCA, hCB]

/-- C7 witness: `H = id`, nodes `1`, `2`, `3`. -/
theorem lru_eviction_scenario_witness :
    (id 1 ≠ id 2 ∧ id 1 ≠ id 3 ∧ id 2 ≠ (id 3 : SH256)) ∧
    (let s0 := (LruMemStore.new Nat 2).1
     let s1 := (LruMemStore.commit s0 (LruMemStore.add_node id [] 1)).2.1
     let s2 := (LruMemStore.commit s1 (LruMemStore.add_node id [] 2)).2.1
     let s3 := (LruMemStore.commit s2 (LruMemStore.add_node id [] 3)).2.1
     (LruMemStore.get s3 [] (id 1)).1 = none ∧
     (LruMemStore.get s3 [] (id 2)).1 = some 2 ∧
     (LruMemStore.get s3 [] (id 3)).1 = some 3) :=
  ⟨⟨by decide, by decide, by decide⟩,
   lru_eviction_scenario id 1 2 3 (by decide) (by decide) (by decide)⟩
